import Mathlib

/-!
Verification of the hierarchical text segmenter of `make_wide_table.py`
(with the composite-key format of `insert_csv.py`).

The segmenter is embedded shallowly:

* the external tiktoken tokenizer is an injected capability (`Tokenizer`),
  deterministic by construction;
* `split_by_tokens`, `split_into_sentences`, `from_raw_text` and
  `from_chunk_csv` are translated from the Python source;
* Python exceptions are modelled with `Except PyError`;
* the regular expression `SENT_SPLIT_RE = (?<=[.?!;:၊။])\s+|\n{2,}` used by
  `re.split` is modelled by the left-to-right, leftmost-match, greedy
  scanner `scanS`, and `re.sub(r"[ \t]+", " ")` by `collapseHT`.
-/

/-- Python exceptions raised by the segmentation core:
`missingColumns` is the explicit `ValueError` for absent CSV columns,
`intParseError` is the `ValueError` raised by `int()` on a non-integer,
`rangeStepZero` is the `ValueError` raised by `range(0, n, 0)`. -/
inductive PyError where
  | missingColumns
  | intParseError
  | rangeStepZero
deriving DecidableEq, Repr

/-- The injected subword tokenizer (`ENC = tiktoken.get_encoding("cl100k_base")`).
`encode_empty` records the (factual) property of the tokenizer that the empty
string encodes to the empty token sequence, used by `enc(text or "")`. -/
structure Tokenizer where
  encode : String → List Nat
  decode : List Nat → String
  encode_empty : encode "" = []

/-- Number of indices produced by Python `range(0, n, L)` for `L > 0`,
which is `ceil(n / L)`. -/
def sliceCount (n L : Nat) : Nat := (n + L - 1) / L

/-- The token slices `[toks[i:i+L] for i in range(0, len(toks), L)]` for a
positive limit `L`. -/
def tokenSlices (toks : List Nat) (L : Nat) : List (List Nat) :=
  (List.range' 0 (sliceCount toks.length L) L).map (fun i => (toks.drop i).take L)

/-- `split_by_tokens(text, limit)` from `make_wide_table.py`:
encode, slice the token list with `range(0, len(toks), limit)`, decode each
slice.  Python `range` raises `ValueError` on step `0` and yields no indices
for a negative step, so a negative limit silently returns `[]`. -/
def split_by_tokens (T : Tokenizer) (text : String) (limit : Int) :
    Except PyError (List String) :=
  let toks := T.encode text
  if limit = 0 then .error .rangeStepZero
  else if limit < 0 then .ok []
  else .ok ((tokenSlices toks limit.toNat).map T.decode)

/-- Whitespace test: the Unicode whitespace characters recognised by Python
`str.strip()` and by `\\s` in Unicode mode. -/
def isSpc (c : Char) : Bool :=
  c = ' ' || c = '\t' || c = '\n' || c = '\r' || c = '\x0b' || c = '\x0c' ||
  c = '\x1c' || c = '\x1d' || c = '\x1e' || c = '\x1f' || c = '\x85' ||
  c = '\u00A0' || c = '\u1680' || c = '\u2000' || c = '\u2001' ||
  c = '\u2002' || c = '\u2003' || c = '\u2004' || c = '\u2005' ||
  c = '\u2006' || c = '\u2007' || c = '\u2008' || c = '\u2009' ||
  c = '\u200A' || c = '\u2028' || c = '\u2029' || c = '\u202F' ||
  c = '\u205F' || c = '\u3000'

/-- Horizontal whitespace, the class `[ \t]` collapsed before splitting. -/
def isHT (c : Char) : Bool := c = ' ' || c = '\t'

/-- Sentence-terminal punctuation of `SENT_SPLIT_RE`: Latin `. ? ! ; :` and
the Myanmar terminators `၊` (U+104A) and `။` (U+104B). -/
def isTerm (c : Char) : Bool :=
  c = '.' || c = '?' || c = '!' || c = ';' || c = ':' ||
  c = '၊' || c = '။'

/-- Python `str.strip()` on a character list. -/
def pyStrip (l : List Char) : List Char :=
  ((l.dropWhile isSpc).reverse.dropWhile isSpc).reverse

/-- `re.sub(r"[ \t]+", " ", t)`: every maximal run of spaces/tabs becomes a
single space. -/
def collapseHT : List Char → List Char
  | [] => []
  | [c] => if isHT c then [' '] else [c]
  | c :: d :: cs =>
    if isHT c then
      (if isHT d then collapseHT (d :: cs) else ' ' :: collapseHT (d :: cs))
    else c :: collapseHT (d :: cs)

/-- Does the previous character satisfy the look-behind `(?<=[.?!;:၊။])`? -/
def prevTerm : Option Char → Bool
  | some p => isTerm p
  | none => false

/-- First alternative of `SENT_SPLIT_RE` fires at `c`: look-behind terminator
and `c` begins `\s+`. -/
def bMatch1 (prev : Option Char) (c : Char) : Bool := prevTerm prev && isSpc c

/-- Second alternative fires at `c`: `c` begins `\n{2,}` (next char of the
remaining input `rest` is also a newline). -/
def bMatch2 (c : Char) (rest : List Char) : Bool :=
  (c == '\n') && (rest.head? == some '\n')

/-- Scanner state: `norm prev cur` is ordinary scanning with look-behind
character `prev` and the current piece accumulated in reverse in `cur`;
`insep last` is inside a greedy `\s+` separator whose last consumed character
is `last`; `innl` is inside a greedy `\n{2,}` separator. -/
inductive SMode where
  | norm (prev : Option Char) (cur : List Char)
  | insep (last : Char)
  | innl

/-- Left-to-right scan of `re.split(SENT_SPLIT_RE, t)`: at each position the
first alternative is preferred, separators are consumed greedily and are not
retained, and the pieces between matches are returned in order.  After a
separator the scan resumes at the first unconsumed character, which is
necessarily non-matching (its look-behind is whitespace and, after a maximal
separator, it cannot start `\s+` resp. `\n{2,}`), so that resume step is
inlined into the separator states. -/
def scanS : SMode → List Char → List (List Char)
  | .norm _ cur, [] => [cur.reverse]
  | .norm prev cur, c :: cs =>
    if bMatch1 prev c then cur.reverse :: scanS (.insep c) cs
    else if bMatch2 c cs then cur.reverse :: scanS .innl cs
    else scanS (.norm (some c) (c :: cur)) cs
  | .insep _, [] => [[]]
  | .insep _, c :: cs =>
    if isSpc c then scanS (.insep c) cs
    else scanS (.norm (some c) [c]) cs
  | .innl, [] => [[]]
  | .innl, c :: cs =>
    if c = '\n' then scanS .innl cs
    else scanS (.norm (some c) [c]) cs

/-- `split_into_sentences` from `make_wide_table.py`, on character lists:
strip; return `[]` on falsy; collapse horizontal whitespace; split by the
regex; keep `p.strip()` for the parts with `p and p.strip()` truthy. -/
def split_into_sentencesCL (text : List Char) : List (List Char) :=
  if pyStrip text = [] then []
  else
    (scanS (.norm none []) (collapseHT (pyStrip text))).filterMap
      (fun p => if p = [] then none
                else if pyStrip p = [] then none
                else some (pyStrip p))

/-- `split_into_sentences` on strings. -/
def split_into_sentencesS (s : String) : List String :=
  (split_into_sentencesCL s.data).map String.mk

/-- One emitted six-field record. -/
structure Row where
  chunk_id : Int
  chunk_text : String
  subchunk_id : Nat
  subchunk_text : String
  sentence_id : Nat
  sentence_text : String
deriving DecidableEq, Repr

/-- Python `enumerate(xs, start=1)`. -/
def enumerate1 {α : Type} (xs : List α) : List (Nat × α) :=
  (List.range' 1 xs.length 1).zip xs

/-- `split_into_sentences(sub_text) or [sub_text]`: the fallback when the
sentence splitter returns the (falsy) empty list. -/
def sentencesOf (st : String) : List String :=
  match split_into_sentencesS st with
  | [] => [st]
  | xs => xs

/-- The rows emitted for one subchunk: one row per sentence, with
`sentence_id` enumerated from 1. -/
def subRows (cid : Int) (ctext : String) (sid : Nat) (stext : String) : List Row :=
  (enumerate1 (sentencesOf stext)).map
    (fun p => ⟨cid, ctext, sid, stext, p.1, p.2⟩)

/-- The rows emitted for one chunk: its subchunks enumerated from 1, each
expanded by `subRows`. -/
def chunkBlock (cid : Int) (ctext : String) (subs : List String) : List Row :=
  ((enumerate1 subs).map (fun q => subRows cid ctext q.1 q.2)).flatten

/-- The inner loop of `from_raw_text` over the already-numbered chunks; an
exception raised for one chunk propagates out of the generator. -/
def rowsFromChunks (T : Tokenizer) (sub_limit : Int) :
    List (Int × String) → Except PyError (List Row)
  | [] => .ok []
  | (cid, ctext) :: rest =>
    match split_by_tokens T ctext sub_limit with
    | .error e => .error e
    | .ok subs =>
      match rowsFromChunks T sub_limit rest with
      | .error e => .error e
      | .ok rs => .ok (chunkBlock cid ctext subs ++ rs)

/-- `from_raw_text(full_text, main_limit, sub_limit)`: token-split the whole
document into chunks numbered from 1, then emit each chunk. -/
def from_raw_text (T : Tokenizer) (full_text : String) (main_limit sub_limit : Int) :
    Except PyError (List Row) :=
  match split_by_tokens T full_text main_limit with
  | .error e => .error e
  | .ok main_chunks =>
    rowsFromChunks T sub_limit
      ((enumerate1 main_chunks).map (fun p => ((p.1 : Int), p.2)))

/-- A cell of the input table: pandas delivers either an integer or a string
to `int(...)` resp. `str(... or "")`. -/
inductive Cell where
  | cInt (n : Int)
  | cStr (s : String)
deriving DecidableEq, Repr

/-- The pre-chunked input table: its column names, and one cell-lookup
function (by original column name) per data row. -/
structure Frame where
  columns : List String
  rows : List (String → Cell)

/-- ASCII lowering of one character (`str.lower()` restricted to the ASCII
letters that occur in column names). -/
def lowerChar (c : Char) : Char :=
  if 'A' ≤ c && c ≤ 'Z' then Char.ofNat (c.toNat + 32) else c

/-- `s.lower()` for column names. -/
def strLower (s : String) : String := String.mk (s.data.map lowerChar)

/-- The dict comprehension `{c.lower(): c for c in df.columns}` looked up at
`key`: the last column whose lowering is `key` wins, `none` when the key is
absent. -/
def lowerGet (cols : List String) (key : String) : Option String :=
  (cols.filter (fun c => strLower c == key)).getLast?

/-- Decimal digit accumulator for `int()` on strings. -/
def digitsToNat (acc : Nat) : List Char → Option Nat
  | [] => some acc
  | c :: cs =>
    if '0' ≤ c && c ≤ '9' then digitsToNat (acc * 10 + (c.toNat - 48)) cs
    else none

/-- Python `int(s)` on a string: strip whitespace, optional sign, a nonempty
run of decimal digits; anything else raises `ValueError`. -/
def pyIntParse (cs : List Char) : Option Int :=
  match pyStrip cs with
  | [] => none
  | '+' :: ds =>
    match ds with
    | [] => none
    | _ => (digitsToNat 0 ds).map Int.ofNat
  | '-' :: ds =>
    match ds with
    | [] => none
    | _ => (digitsToNat 0 ds).map (fun n => -(n : Int))
  | ds => (digitsToNat 0 ds).map Int.ofNat

/-- `int(row[col])`: an integer cell is returned as is, a string cell is
parsed, failure raises `ValueError`. -/
def pyInt (c : Cell) : Except PyError Int :=
  match c with
  | .cInt n => .ok n
  | .cStr s =>
    match pyIntParse s.data with
    | some n => .ok n
    | none => .error .intParseError

/-- `str(row[col] or "")`: falsy cells (`0`, `""`) become the empty string. -/
def pyOrStr (c : Cell) : String :=
  match c with
  | .cInt 0 => ""
  | .cInt n => toString n
  | .cStr s => s

/-- The row loop of `from_chunk_csv` once the two column names are resolved. -/
def csvRows (T : Tokenizer) (sub_limit : Int) (cidCol ctxCol : String) :
    List (String → Cell) → Except PyError (List Row)
  | [] => .ok []
  | row :: rest =>
    match pyInt (row cidCol) with
    | .error e => .error e
    | .ok cid =>
      match split_by_tokens T (pyOrStr (row ctxCol)) sub_limit with
      | .error e => .error e
      | .ok subs =>
        match csvRows T sub_limit cidCol ctxCol rest with
        | .error e => .error e
        | .ok rs => .ok (chunkBlock cid (pyOrStr (row ctxCol)) subs ++ rs)

/-- `from_chunk_csv(df, sub_limit)`: resolve `chunk_id` and `chunk_text`
case-insensitively, raise `ValueError` when either is absent, then emit the
rows with caller-supplied chunk ids taken verbatim. -/
def from_chunk_csv (T : Tokenizer) (df : Frame) (sub_limit : Int) :
    Except PyError (List Row) :=
  match lowerGet df.columns "chunk_id", lowerGet df.columns "chunk_text" with
  | some cidCol, some ctxCol => csvRows T sub_limit cidCol ctxCol df.rows
  | _, _ => .error .missingColumns

/-- `s.zfill`-style zero padding to total width `k`. -/
def zfill (k : Nat) (s : String) : String :=
  if k ≤ s.length then s
  else String.mk (List.replicate (k - s.length) '0') ++ s

/-- Python `f"{n:06d}"`: width 6 counting the sign, zero padding after the
sign, no truncation. -/
def py06d (n : Int) : String :=
  if n < 0 then "-" ++ zfill 5 (Nat.repr (-n).toNat)
  else zfill 6 (Nat.repr n.toNat)

/-- The composite datastore key of `insert_csv.py`:
`f"{chunk_id:06d}-{subchunk_id:06d}-{sentence_id:06d}"`. -/
def rowUuid (chunk_id subchunk_id sentence_id : Int) : String :=
  py06d chunk_id ++ "-" ++ py06d subchunk_id ++ "-" ++ py06d sentence_id

/-- Modelled from the spec: one id zero-padded to fixed width 6 (for the
non-negative ids of emitted rows). -/
def padKeySpec (n : Int) : String :=
  String.mk (List.replicate (6 - (Nat.repr n.toNat).length) '0') ++ Nat.repr n.toNat

/-- Modelled from the spec: the three ids zero-padded to fixed width 6 and
joined by a `-` separator. -/
def compositeKeySpec (c s t : Int) : String :=
  padKeySpec c ++ "-" ++ padKeySpec s ++ "-" ++ padKeySpec t

/-- A concrete deterministic tokenizer for witnesses: one token per
character. -/
def demoTok : Tokenizer where
  encode s := s.data.map Char.toNat
  decode ts := String.mk (ts.map Char.ofNat)
  encode_empty := rfl

/-- A pre-chunked input whose caller-supplied chunk id is `0`. -/
def frameZero : Frame where
  columns := ["chunk_id", "chunk_text"]
  rows := [fun c => if c = "chunk_id" then Cell.cInt 0 else Cell.cStr "hi"]

/-- A pre-chunked input naming the required columns in mixed case. -/
def frameUpper : Frame where
  columns := ["CHUNK_ID", "Chunk_Text"]
  rows := [fun c => if c = "CHUNK_ID" then Cell.cInt 7 else Cell.cStr "hi"]

/-- A pre-chunked input whose chunk id cell is not an integer. -/
def frameBad : Frame where
  columns := ["chunk_id", "chunk_text"]
  rows := [fun _ => Cell.cStr "abc"]

/-- Recursive view of the token slicing, used only in proofs: first `l+1`
tokens, then the slicing of the rest. -/
def chunkRecP (l : Nat) (xs : List Nat) : List (List Nat) :=
  match xs with
  | [] => []
  | x :: rest =>
    List.take (l + 1) (x :: rest) :: chunkRecP l (List.drop (l + 1) (x :: rest))
termination_by xs.length
decreasing_by simp [List.length_drop]; omega

/-- No position of `u` (continued by `rest`, with look-behind `p`) matches
either alternative of `SENT_SPLIT_RE`. -/
def chainW : Option Char → List Char → List Char → Bool
  | _, [], _ => true
  | p, c :: cs, rest =>
    !bMatch1 p c && !bMatch2 c (cs ++ rest) && chainW (some c) cs rest

/-- The look-behind character after consuming `u` (or `prev` if `u` is
empty). -/
def lastOpt (prev : Option Char) (u : List Char) : Option Char :=
  match u.getLast? with
  | some x => some x
  | none => prev

/-- A subchunk descriptor: the data determining one emitted block of rows. -/
structure SubD where
  cid : Int
  ctext : String
  sid : Nat
  stext : String

/-- The row stream determined by a list of subchunk descriptors. -/
def buildRows (ds : List SubD) : List Row :=
  (ds.map (fun d => subRows d.cid d.ctext d.sid d.stext)).flatten

/-- The `sentence_id` values of the rows with the given
`(chunk_id, subchunk_id)` pair, in emission order. -/
def sentKey (rows : List Row) (c : Int) (s : Nat) : List Nat :=
  (rows.filter (fun r => r.chunk_id == c && r.subchunk_id == s)).map
    (fun r => r.sentence_id)

/-- The number of sentences emitted for a subchunk text (with fallback). -/
def kLen (st : String) : Nat := (sentencesOf st).length

theorem chunkRecP_cons (l x : Nat) (rest : List Nat) :
    chunkRecP l (x :: rest) =
      List.take (l + 1) (x :: rest) :: chunkRecP l (List.drop (l + 1) (x :: rest)) := by
  rw [chunkRecP]

theorem chunkRecP_eq_nil_iff (l : Nat) (xs : List Nat) :
    chunkRecP l xs = [] ↔ xs = [] := by
  cases xs with
  | nil => simp [chunkRecP]
  | cons x rest => rw [chunkRecP_cons]; simp

theorem chunkRecP_flatten_aux (l n : Nat) :
    ∀ xs : List Nat, xs.length ≤ n → (chunkRecP l xs).flatten = xs := by
  induction n with
  | zero =>
    intro xs h
    have hx : xs = [] := List.eq_nil_of_length_eq_zero (Nat.le_zero.mp h)
    subst hx; simp [chunkRecP]
  | succ n ih =>
    intro xs h
    cases xs with
    | nil => simp [chunkRecP]
    | cons x rest =>
      rw [chunkRecP_cons, List.flatten_cons, ih]
      · exact List.take_append_drop _ _
      · simp only [List.length_drop, List.length_cons] at *
        omega

theorem chunkRecP_flatten (l : Nat) (xs : List Nat) :
    (chunkRecP l xs).flatten = xs :=
  chunkRecP_flatten_aux l xs.length xs (Nat.le_refl _)

theorem chunkRecP_mem_length_aux (l n : Nat) :
    ∀ (xs s : List Nat), xs.length ≤ n → s ∈ chunkRecP l xs →
      1 ≤ s.length ∧ s.length ≤ l + 1 := by
  induction n with
  | zero =>
    intro xs s h hs
    have hx : xs = [] := List.eq_nil_of_length_eq_zero (Nat.le_zero.mp h)
    subst hx; simp [chunkRecP] at hs
  | succ n ih =>
    intro xs s h hs
    cases xs with
    | nil => simp [chunkRecP] at hs
    | cons x rest =>
      rw [chunkRecP_cons] at hs
      rcases List.mem_cons.mp hs with h1 | h2
      · subst h1
        constructor
        · simp [List.length_take]
        · simp [List.length_take]
      · refine ih _ s ?_ h2
        simp only [List.length_drop, List.length_cons] at *
        omega

theorem chunkRecP_mem_length (l : Nat) (xs s : List Nat)
    (hs : s ∈ chunkRecP l xs) : 1 ≤ s.length ∧ s.length ≤ l + 1 :=
  chunkRecP_mem_length_aux l xs.length xs s (Nat.le_refl _) hs

theorem chunkRecP_get_full_aux (l n : Nat) :
    ∀ (xs : List Nat) (i : Nat) (s : List Nat), xs.length ≤ n →
      i + 1 < (chunkRecP l xs).length → (chunkRecP l xs)[i]? = some s →
      s.length = l + 1 := by
  induction n with
  | zero =>
    intro xs i s hlen _ hget
    have hx : xs = [] := List.eq_nil_of_length_eq_zero (Nat.le_zero.mp hlen)
    subst hx; simp [chunkRecP] at hget
  | succ n ih =>
    intro xs i s hlen hlast hget
    cases xs with
    | nil => simp [chunkRecP] at hget
    | cons x rest =>
      rw [chunkRecP_cons] at hlast hget
      rcases i with _ | i
      · rw [List.getElem?_cons_zero] at hget
        have hs : s = List.take (l + 1) (x :: rest) := by
          exact (Option.some_inj.mp hget).symm
        have hne : chunkRecP l (List.drop (l + 1) (x :: rest)) ≠ [] := by
          intro hnil
          rw [hnil] at hlast
          simp at hlast
        have hdrop : List.drop (l + 1) (x :: rest) ≠ [] := by
          intro hd
          exact hne (by rw [hd]; exact (chunkRecP_eq_nil_iff l []).mpr rfl)
        have hlong : l + 1 < (x :: rest).length := by
          by_contra hc
          exact hdrop (List.drop_eq_nil_of_le (by omega))
        subst hs
        rw [List.length_take]
        have hlong2 : l + 1 < rest.length + 1 := by simpa using hlong
        apply min_eq_left
        simp only [List.length_cons]
        omega
      · rw [List.getElem?_cons_succ] at hget
        have hbound : (List.drop (l + 1) (x :: rest)).length ≤ n := by
          have hl2 : rest.length + 1 ≤ n + 1 := by simpa using hlen
          rw [List.length_drop, List.length_cons]
          omega
        refine ih _ i s hbound ?_ hget
        simp only [List.length_cons] at hlast
        omega

theorem chunkRecP_length_aux (l n : Nat) :
    ∀ xs : List Nat, xs.length ≤ n →
      (chunkRecP l xs).length = (xs.length + l) / (l + 1) := by
  induction n with
  | zero =>
    intro xs h
    have hx : xs = [] := List.eq_nil_of_length_eq_zero (Nat.le_zero.mp h)
    subst hx
    simp [chunkRecP, Nat.div_eq_of_lt]
  | succ n ih =>
    intro xs h
    cases xs with
    | nil => simp [chunkRecP, Nat.div_eq_of_lt]
    | cons x rest =>
      have hbound : (List.drop (l + 1) (x :: rest)).length ≤ n := by
        have : (x :: rest).length ≤ n + 1 := h
        simp only [List.length_drop, List.length_cons] at *
        omega
      rw [chunkRecP_cons, List.length_cons, ih _ hbound]
      have hlen : (List.drop (l + 1) (x :: rest)).length = rest.length - l := by
        simp [List.length_drop]
      rw [hlen]
      have h2 : (x :: rest).length + l = rest.length + (l + 1) := by
        simp [List.length_cons]; omega
      rw [h2, Nat.add_div_right _ (show 0 < l + 1 by omega)]
      rcases Nat.le_total rest.length l with hc | hc
      · have e1 : rest.length - l = 0 := by omega
        rw [e1, Nat.div_eq_of_lt (show 0 + l < l + 1 by omega),
          Nat.div_eq_of_lt (show rest.length < l + 1 by omega)]
      · have e1 : rest.length - l + l = rest.length := by omega
        rw [e1]

theorem chunkRecP_length (l : Nat) (xs : List Nat) :
    (chunkRecP l xs).length = (xs.length + l) / (l + 1) :=
  chunkRecP_length_aux l xs.length xs (Nat.le_refl _)

theorem range'_shift (a d : Nat) :
    ∀ (k s : Nat), List.range' (s + a) k d = (List.range' s k d).map (· + a) := by
  intro k
  induction k with
  | zero => intro s; simp
  | succ k ih =>
    intro s
    rw [List.range'_succ, List.range'_succ, List.map_cons, ← ih]
    have : s + a + d = s + d + a := by omega
    rw [this]

theorem range'_from_zero (a d k : Nat) :
    List.range' a k d = (List.range' 0 k d).map (· + a) := by
  have h := range'_shift a d k 0
  rwa [Nat.zero_add] at h

theorem tokenSlices_eq_aux (l n : Nat) :
    ∀ xs : List Nat, xs.length ≤ n → tokenSlices xs (l + 1) = chunkRecP l xs := by
  induction n with
  | zero =>
    intro xs h
    have hx : xs = [] := List.eq_nil_of_length_eq_zero (Nat.le_zero.mp h)
    subst hx
    simp [tokenSlices, chunkRecP, sliceCount, Nat.div_eq_of_lt]
  | succ n ih =>
    intro xs h
    cases xs with
    | nil => simp [tokenSlices, chunkRecP, sliceCount, Nat.div_eq_of_lt]
    | cons x rest =>
      have hcount : sliceCount (x :: rest).length (l + 1) =
          rest.length / (l + 1) + 1 := by
        unfold sliceCount
        have h2 : (x :: rest).length + (l + 1) - 1 = rest.length + (l + 1) := by
          simp [List.length_cons]; omega
        rw [h2, Nat.add_div_right _ (show 0 < l + 1 by omega)]
      have hcount2 : sliceCount (List.drop (l + 1) (x :: rest)).length (l + 1) =
          rest.length / (l + 1) := by
        unfold sliceCount
        have hlen : (List.drop (l + 1) (x :: rest)).length = rest.length - l := by
          simp [List.length_drop]
        rw [hlen]
        rcases Nat.le_total rest.length l with hc | hc
        · have e1 : rest.length - l + (l + 1) - 1 = l + (rest.length - l) := by omega
          rw [e1, Nat.div_eq_of_lt (show l + (rest.length - l) < l + 1 by omega),
            Nat.div_eq_of_lt (show rest.length < l + 1 by omega)]
        · have e1 : rest.length - l + (l + 1) - 1 = rest.length := by omega
          rw [e1]
      have hbound : (List.drop (l + 1) (x :: rest)).length ≤ n := by
        have : (x :: rest).length ≤ n + 1 := h
        simp only [List.length_drop, List.length_cons] at *
        omega
      have htail :
          List.map (fun i => List.take (l + 1) (List.drop i (x :: rest)))
              (List.range' (l + 1) (rest.length / (l + 1)) (l + 1)) =
            List.map (fun i => List.take (l + 1)
                (List.drop i (List.drop (l + 1) (x :: rest))))
              (List.range' 0 (rest.length / (l + 1)) (l + 1)) := by
        rw [range'_from_zero (l + 1) (l + 1) (rest.length / (l + 1)), List.map_map]
        apply List.map_congr_left
        intro i _
        simp only [Function.comp_apply]
        rw [List.drop_drop]
        congr 2
        omega
      rw [chunkRecP_cons, ← ih (List.drop (l + 1) (x :: rest)) hbound]
      unfold tokenSlices
      rw [hcount, hcount2]
      simp only [List.range'_succ, List.map_cons, Nat.zero_add, List.drop_zero]
      rw [htail]

theorem tokenSlices_eq_chunkRecP (l : Nat) (xs : List Nat) :
    tokenSlices xs (l + 1) = chunkRecP l xs :=
  tokenSlices_eq_aux l xs.length xs (Nat.le_refl _)

theorem split_by_tokens_pos (T : Tokenizer) (text : String) {limit : Int}
    (h : 0 < limit) :
    split_by_tokens T text limit =
      .ok ((tokenSlices (T.encode text) limit.toNat).map T.decode) := by
  unfold split_by_tokens
  rw [if_neg (by omega), if_neg (by omega)]


theorem dropWhile_head?_not {α : Type} (p : α → Bool) :
    ∀ (l : List α) (a : α), (l.dropWhile p).head? = some a → p a = false := by
  intro l
  induction l with
  | nil => intro a h; simp at h
  | cons c cs ih =>
    intro a h
    rw [List.dropWhile_cons] at h
    by_cases hc : p c = true
    · rw [if_pos hc] at h; exact ih a h
    · rw [if_neg hc] at h
      simp only [List.head?_cons, Option.some_inj] at h
      subst h
      simpa using hc

theorem dropWhile_getLast? {α : Type} (p : α → Bool) (l : List α)
    (h : l.dropWhile p ≠ []) : (l.dropWhile p).getLast? = l.getLast? := by
  conv_rhs => rw [← List.takeWhile_append_dropWhile p l]
  rw [List.getLast?_append]
  cases hx : (l.dropWhile p).getLast? with
  | none => exact absurd (List.getLast?_eq_none_iff.mp hx) h
  | some b => rfl

theorem dropWhile_eq_self_of_head? {α : Type} {p : α → Bool} {l : List α} {a : α}
    (h : l.head? = some a) (hp : p a = false) : l.dropWhile p = l := by
  cases l with
  | nil => simp at h
  | cons c cs =>
    simp only [List.head?_cons, Option.some_inj] at h
    subst h
    rw [List.dropWhile_cons, if_neg (by simp [hp])]

theorem pyStrip_nil : pyStrip [] = [] := rfl

theorem pyStrip_eq_nil_iff (l : List Char) :
    pyStrip l = [] ↔ ∀ c ∈ l, isSpc c = true := by
  unfold pyStrip
  rw [List.reverse_eq_nil_iff, List.dropWhile_eq_nil_iff]
  constructor
  · intro h c hc
    rw [← List.takeWhile_append_dropWhile isSpc l] at hc
    rcases List.mem_append.mp hc with h1 | h2
    · exact List.mem_takeWhile_imp h1
    · exact h c (List.mem_reverse.mpr h2)
  · intro h c hc
    exact h c ((List.dropWhile_sublist _).mem (List.mem_reverse.mp hc))

theorem pyStrip_head (l : List Char) (h : pyStrip l ≠ []) :
    ∃ a, (pyStrip l).head? = some a ∧ isSpc a = false := by
  have hBne : (l.dropWhile isSpc).reverse.dropWhile isSpc ≠ [] := by
    intro hb
    apply h
    unfold pyStrip
    rw [hb]
    rfl
  have hgl : ((l.dropWhile isSpc).reverse.dropWhile isSpc).getLast? =
      ((l.dropWhile isSpc).reverse).getLast? := dropWhile_getLast? _ _ hBne
  rw [List.getLast?_reverse] at hgl
  cases hx : (l.dropWhile isSpc).head? with
  | none =>
    exfalso
    apply hBne
    rw [List.head?_eq_none_iff.mp hx]
    rfl
  | some a =>
    refine ⟨a, ?_, dropWhile_head?_not isSpc l a hx⟩
    show (pyStrip l).head? = some a
    unfold pyStrip
    rw [List.head?_reverse, hgl, hx]

theorem pyStrip_getLast (l : List Char) (h : pyStrip l ≠ []) :
    ∃ b, (pyStrip l).getLast? = some b ∧ isSpc b = false := by
  have hBne : (l.dropWhile isSpc).reverse.dropWhile isSpc ≠ [] := by
    intro hb
    apply h
    unfold pyStrip
    rw [hb]
    rfl
  cases hx : ((l.dropWhile isSpc).reverse.dropWhile isSpc).head? with
  | none => exact absurd (List.head?_eq_none_iff.mp hx) hBne
  | some b =>
    refine ⟨b, ?_, dropWhile_head?_not isSpc _ b hx⟩
    unfold pyStrip
    rw [List.getLast?_reverse, hx]

theorem pyStrip_eq_self {l : List Char} {a b : Char}
    (ha : l.head? = some a) (hsa : isSpc a = false)
    (hb : l.getLast? = some b) (hsb : isSpc b = false) : pyStrip l = l := by
  unfold pyStrip
  rw [dropWhile_eq_self_of_head? ha hsa,
    dropWhile_eq_self_of_head? (by rw [List.head?_reverse]; exact hb) hsb]
  exact List.reverse_reverse l

theorem pyStrip_idem (l : List Char) : pyStrip (pyStrip l) = pyStrip l := by
  by_cases h : pyStrip l = []
  · rw [h]; rfl
  · obtain ⟨a, ha, hsa⟩ := pyStrip_head l h
    obtain ⟨b, hb, hsb⟩ := pyStrip_getLast l h
    exact pyStrip_eq_self ha hsa hb hsb

theorem isHT_isSpc {c : Char} (h : isHT c = true) : isSpc c = true := by
  simp only [isHT, Bool.or_eq_true, decide_eq_true_eq] at h
  rcases h with rfl | rfl <;> rfl

theorem isHT_false_of_isSpc_false {c : Char} (h : isSpc c = false) :
    isHT c = false := by
  by_cases hc : isHT c = true
  · rw [isHT_isSpc hc] at h
    exact absurd h (by simp)
  · simpa using hc

theorem collapseHT_ne_nil : ∀ l : List Char, l ≠ [] → collapseHT l ≠ [] := by
  intro l
  induction l with
  | nil => intro h; exact absurd rfl h
  | cons c cs ih =>
    intro _
    cases cs with
    | nil =>
      by_cases hc : isHT c = true
      · simp [collapseHT, hc]
      · simp [collapseHT, hc]
    | cons d ds =>
      by_cases hc : isHT c = true
      · by_cases hd : isHT d = true
        · simp only [collapseHT, if_pos hc, if_pos hd]
          exact ih (by simp)
        · simp [collapseHT, hc, hd]
      · simp [collapseHT, hc]

theorem collapseHT_head? {l : List Char} {a : Char}
    (h : l.head? = some a) (hna : isHT a = false) :
    (collapseHT l).head? = some a := by
  cases l with
  | nil => simp at h
  | cons c cs =>
    simp only [List.head?_cons, Option.some_inj] at h
    subst h
    cases cs with
    | nil => simp [collapseHT, hna]
    | cons d ds => simp [collapseHT, hna]

theorem getLast?_cons_ne_nil {α : Type} (a : α) {x : List α} (h : x ≠ []) :
    (a :: x).getLast? = x.getLast? := by
  cases x with
  | nil => exact absurd rfl h
  | cons b l => exact List.getLast?_cons_cons

theorem collapseHT_getLast? : ∀ (l : List Char) (b : Char),
    l.getLast? = some b → isSpc b = false → (collapseHT l).getLast? = some b := by
  intro l
  induction l with
  | nil => intro b h _; simp at h
  | cons c cs ih =>
    intro b h hsb
    cases cs with
    | nil =>
      simp only [List.getLast?_singleton, Option.some_inj] at h
      subst h
      simp [collapseHT, isHT_false_of_isSpc_false hsb]
    | cons d ds =>
      rw [List.getLast?_cons_cons] at h
      have hx := ih b h hsb
      by_cases hc : isHT c = true
      · by_cases hd : isHT d = true
        · simp only [collapseHT, if_pos hc, if_pos hd]
          exact hx
        · simp only [collapseHT, if_pos hc, if_neg hd]
          rw [getLast?_cons_ne_nil _ (collapseHT_ne_nil _ (by simp))]
          exact hx
      · simp only [collapseHT, if_neg hc]
        rw [getLast?_cons_ne_nil _ (collapseHT_ne_nil _ (by simp))]
        exact hx

theorem lastOpt_nil (prev : Option Char) : lastOpt prev [] = prev := rfl

theorem lastOpt_cons (prev : Option Char) (c : Char) (cs : List Char) :
    lastOpt prev (c :: cs) = lastOpt (some c) cs := by
  cases cs with
  | nil => rfl
  | cons d ds =>
    unfold lastOpt
    rw [List.getLast?_cons_cons]
    cases hx : (d :: ds).getLast? with
    | none => exact absurd (List.getLast?_eq_none_iff.mp hx) (by simp)
    | some x => rfl

theorem scan_walk : ∀ (u : List Char) (prev : Option Char) (cur rest : List Char),
    chainW prev u rest = true →
    scanS (.norm prev cur) (u ++ rest) =
      scanS (.norm (lastOpt prev u) (u.reverse ++ cur)) rest := by
  intro u
  induction u with
  | nil => intro prev cur rest _; simp [lastOpt_nil]
  | cons c cs ih =>
    intro prev cur rest h
    simp only [chainW, Bool.and_eq_true, Bool.not_eq_true'] at h
    obtain ⟨⟨h1, h2⟩, h3⟩ := h
    rw [List.cons_append]
    simp only [scanS]
    rw [if_neg (by simp [h1]), if_neg (by simp [h2]),
      ih (some c) (c :: cur) rest h3, lastOpt_cons]
    have he : (c :: cs).reverse ++ cur = cs.reverse ++ (c :: cur) := by
      simp
    rw [he]

theorem scan_all (u : List Char) (prev : Option Char) (cur : List Char)
    (h : chainW prev u [] = true) :
    scanS (.norm prev cur) u = [cur.reverse ++ u] := by
  have hw := scan_walk u prev cur [] h
  rw [List.append_nil] at hw
  rw [hw]
  simp only [scanS]
  rw [List.reverse_append, List.reverse_reverse]

theorem sep_walk : ∀ (ws : List Char) (last hv : Char) (vt : List Char),
    ws.all isSpc = true → isSpc hv = false →
    scanS (.insep last) (ws ++ hv :: vt) = scanS (.norm (some hv) [hv]) vt := by
  intro ws
  induction ws with
  | nil =>
    intro last hv vt _ hhv
    simp only [List.nil_append, scanS]
    rw [if_neg (by simp [hhv])]
  | cons w ws ih =>
    intro last hv vt hall hhv
    simp only [List.all_cons, Bool.and_eq_true] at hall
    simp only [List.cons_append, scanS]
    rw [if_pos hall.1]
    exact ih w hv vt hall.2 hhv

theorem nl_walk : ∀ (ws : List Char) (hv : Char) (vt : List Char),
    ws.all (· == '\n') = true → isSpc hv = false →
    scanS .innl (ws ++ hv :: vt) = scanS (.norm (some hv) [hv]) vt := by
  intro ws
  induction ws with
  | nil =>
    intro hv vt _ hhv
    have hne : hv ≠ '\n' := by
      intro he
      subst he
      exact absurd hhv (by decide)
    simp only [List.nil_append, scanS]
    rw [if_neg hne]
  | cons w ws ih =>
    intro hv vt hall hhv
    simp only [List.all_cons, Bool.and_eq_true] at hall
    have hw : w = '\n' := by simpa using hall.1
    simp only [List.cons_append, scanS]
    rw [if_pos hw]
    exact ih hv vt hall.2 hhv

theorem scan_resume (hv : Char) (vt : List Char)
    (h : chainW none (hv :: vt) [] = true) :
    scanS (.norm (some hv) [hv]) vt = [hv :: vt] := by
  simp only [chainW, Bool.and_eq_true, Bool.not_eq_true'] at h
  obtain ⟨⟨_, _⟩, h3⟩ := h
  rw [scan_all vt (some hv) [hv] h3]
  simp

theorem scan_junction (u sep : List Char) (lu hv : Char) (vt : List Char)
    (hu : chainW none u (sep ++ (hv :: vt)) = true)
    (hlu : u.getLast? = some lu)
    (hhv : isSpc hv = false)
    (hvch : chainW none (hv :: vt) [] = true)
    (hsep : (isTerm lu = true ∧ sep ≠ [] ∧ sep.all isSpc = true) ∨
            (sep.all (· == '\n') = true ∧ 2 ≤ sep.length)) :
    scanS (.norm none []) (u ++ sep ++ (hv :: vt)) = [u, hv :: vt] := by
  rw [List.append_assoc, scan_walk u none [] (sep ++ (hv :: vt)) hu]
  have hlo : lastOpt none u = some lu := by
    unfold lastOpt
    rw [hlu]
  rw [hlo, List.append_nil]
  rcases hsep with ⟨hterm, hne, hall⟩ | ⟨hall, hlen⟩
  · cases sep with
    | nil => exact absurd rfl hne
    | cons s0 st =>
      simp only [List.all_cons, Bool.and_eq_true] at hall
      have hb1 : bMatch1 (some lu) s0 = true := by
        simp only [bMatch1, prevTerm]
        rw [hterm, hall.1]
        rfl
      simp only [List.cons_append, scanS]
      rw [if_pos hb1, List.reverse_reverse]
      simp only [List.append_eq]
      rw [sep_walk st s0 hv vt hall.2 hhv, scan_resume hv vt hvch]
  · cases sep with
    | nil => simp at hlen
    | cons s0 st =>
      simp only [List.all_cons, Bool.and_eq_true] at hall
      have hs0 : s0 = '\n' := by simpa using hall.1
      subst hs0
      have hallsp : st.all isSpc = true := by
        rw [List.all_eq_true]
        intro x hx
        have hxn : x = '\n' := by simpa using List.all_eq_true.mp hall.2 x hx
        subst hxn
        rfl
      by_cases hterm : isTerm lu = true
      · have hb1 : bMatch1 (some lu) '\n' = true := by
          simp only [bMatch1, prevTerm]
          rw [hterm]
          decide
        simp only [List.cons_append, scanS]
        rw [if_pos hb1, List.reverse_reverse]
        simp only [List.append_eq]
        rw [sep_walk st '\n' hv vt hallsp hhv, scan_resume hv vt hvch]
      · have hterm2 : isTerm lu = false := by
          cases hx : isTerm lu
          · rfl
          · exact absurd hx hterm
        have hb1 : bMatch1 (some lu) '\n' = false := by
          simp only [bMatch1, prevTerm]
          rw [hterm2]
          rfl
        cases st with
        | nil => simp at hlen
        | cons s1 st2 =>
          simp only [List.all_cons, Bool.and_eq_true] at hall
          have hs1 : s1 = '\n' := by simpa using hall.2.1
          subst hs1
          have hb2 : bMatch2 '\n' ('\n' :: (st2 ++ (hv :: vt))) = true := by
            unfold bMatch2
            simp
          simp only [List.cons_append]
          rw [scanS]
          rw [if_neg (by simp [hb1])]
          rw [if_pos hb2]
          rw [List.reverse_reverse]
          rw [show ('\n' :: (st2 ++ (hv :: vt))) = (('\n' :: st2) ++ (hv :: vt)) from rfl]
          rw [nl_walk ('\n' :: st2) hv vt (by simp [hall.2.2]) hhv]
          rw [scan_resume hv vt hvch]

theorem split_mem_strip (text t : List Char)
    (ht : t ∈ split_into_sentencesCL text) :
    ∃ p, t = pyStrip p ∧ pyStrip p ≠ [] := by
  unfold split_into_sentencesCL at ht
  by_cases h : pyStrip text = []
  · rw [if_pos h] at ht; simp at ht
  · rw [if_neg h] at ht
    obtain ⟨p, _, he⟩ := List.mem_filterMap.mp ht
    by_cases h1 : p = []
    · rw [if_pos h1] at he; simp at he
    · rw [if_neg h1] at he
      by_cases h2 : pyStrip p = []
      · rw [if_pos h2] at he; simp at he
      · rw [if_neg h2] at he
        simp only [Option.some_inj] at he
        exact ⟨p, he.symm, h2⟩

theorem split_span_strip_ne (text t : List Char)
    (ht : t ∈ split_into_sentencesCL text) : pyStrip t ≠ [] := by
  obtain ⟨p, rfl, hne⟩ := split_mem_strip text t ht
  rw [pyStrip_idem]
  exact hne

theorem split_ws_only (text : List Char) (h : ∀ c ∈ text, isSpc c = true) :
    split_into_sentencesCL text = [] := by
  unfold split_into_sentencesCL
  rw [if_pos ((pyStrip_eq_nil_iff text).mpr h)]

theorem split_noBoundary (t : List Char) (hne : pyStrip t ≠ [])
    (hnb : chainW none (collapseHT (pyStrip t)) [] = true) :
    split_into_sentencesCL t = [collapseHT (pyStrip t)] := by
  unfold split_into_sentencesCL
  rw [if_neg hne]
  have hntne : collapseHT (pyStrip t) ≠ [] := collapseHT_ne_nil _ hne
  obtain ⟨a, ha, hsa⟩ := pyStrip_head t hne
  obtain ⟨b, hb, hsb⟩ := pyStrip_getLast t hne
  have hh : (collapseHT (pyStrip t)).head? = some a :=
    collapseHT_head? ha (isHT_false_of_isSpc_false hsa)
  have hl : (collapseHT (pyStrip t)).getLast? = some b :=
    collapseHT_getLast? (pyStrip t) b hb hsb
  have hstrip : pyStrip (collapseHT (pyStrip t)) = collapseHT (pyStrip t) :=
    pyStrip_eq_self hh hsa hl hsb
  have hps : pyStrip (collapseHT (pyStrip t)) ≠ [] := by
    rw [hstrip]
    exact hntne
  rw [scan_all (collapseHT (pyStrip t)) none [] hnb]
  simp [hntne, hps, hstrip]

theorem enumerate1_fst {α : Type} (xs : List α) :
    (enumerate1 xs).map Prod.fst = List.range' 1 xs.length 1 :=
  List.map_fst_zip _ _ (by rw [List.length_range'])

theorem enumerate1_mem {α : Type} {i : Nat} {x : α} {xs : List α}
    (h : (i, x) ∈ enumerate1 xs) : 1 ≤ i ∧ x ∈ xs := by
  obtain ⟨h1, h2⟩ := List.of_mem_zip h
  exact ⟨(List.mem_range'_1.mp h1).1, h2⟩

theorem enumerate1_singleton {α : Type} (x : α) : enumerate1 [x] = [(1, x)] := rfl

theorem kLen_pos (st : String) : 1 ≤ kLen st := by
  unfold kLen sentencesOf
  cases split_into_sentencesS st with
  | nil => simp
  | cons a l => simp

theorem sentencesOf_of_empty {st : String} (h : split_into_sentencesS st = []) :
    sentencesOf st = [st] := by
  unfold sentencesOf
  rw [h]

theorem subRows_of_empty (cid : Int) (ctext : String) (sid : Nat) (stext : String)
    (h : split_into_sentencesS stext = []) :
    subRows cid ctext sid stext = [⟨cid, ctext, sid, stext, 1, stext⟩] := by
  unfold subRows
  rw [sentencesOf_of_empty h, enumerate1_singleton]
  rfl

theorem subRows_fields {cid : Int} {ctext : String} {sid : Nat} {stext : String}
    {r : Row} (h : r ∈ subRows cid ctext sid stext) :
    r.chunk_id = cid ∧ r.chunk_text = ctext ∧ r.subchunk_id = sid ∧
      r.subchunk_text = stext ∧ 1 ≤ r.sentence_id := by
  unfold subRows at h
  obtain ⟨p, hp, he⟩ := List.mem_map.mp h
  obtain ⟨i, x⟩ := p
  have h1 := (enumerate1_mem hp).1
  subst he
  exact ⟨rfl, rfl, rfl, rfl, h1⟩

theorem subRows_sids (cid : Int) (ctext : String) (sid : Nat) (stext : String) :
    (subRows cid ctext sid stext).map (fun r => r.sentence_id) =
      List.range' 1 (kLen stext) 1 := by
  unfold subRows
  rw [List.map_map]
  have he : ((fun r : Row => r.sentence_id) ∘
      (fun p : Nat × String => (⟨cid, ctext, sid, stext, p.1, p.2⟩ : Row))) =
      Prod.fst := rfl
  rw [he, enumerate1_fst]
  rfl

theorem buildRows_nil : buildRows [] = [] := rfl

theorem buildRows_append (d1 d2 : List SubD) :
    buildRows (d1 ++ d2) = buildRows d1 ++ buildRows d2 := by
  unfold buildRows
  rw [List.map_append, List.flatten_append]

theorem chunkBlock_eq_buildRows (cid : Int) (ctext : String) (subs : List String) :
    chunkBlock cid ctext subs =
      buildRows ((enumerate1 subs).map (fun q => ⟨cid, ctext, q.1, q.2⟩)) := by
  unfold chunkBlock buildRows
  rw [List.map_map]
  rfl

theorem buildRows_mem {ds : List SubD} {r : Row} (h : r ∈ buildRows ds) :
    ∃ d ∈ ds, r ∈ subRows d.cid d.ctext d.sid d.stext := by
  unfold buildRows at h
  obtain ⟨blk, hblk, hr⟩ := List.mem_flatten.mp h
  obtain ⟨d, hd, he⟩ := List.mem_map.mp hblk
  exact ⟨d, hd, by rw [he]; exact hr⟩

theorem buildRows_ids (ds : List SubD)
    (hpos : ∀ d ∈ ds, 1 ≤ d.cid ∧ 1 ≤ d.sid) :
    ∀ r ∈ buildRows ds, 1 ≤ r.chunk_id ∧ 1 ≤ r.subchunk_id ∧ 1 ≤ r.sentence_id := by
  intro r hr
  obtain ⟨d, hd, hrs⟩ := buildRows_mem hr
  obtain ⟨h1, _, h3, _, h5⟩ := subRows_fields hrs
  obtain ⟨hc, hs⟩ := hpos d hd
  rw [h1, h3]
  exact ⟨hc, hs, h5⟩

theorem subRows_filter (cid : Int) (ctext : String) (sid : Nat) (stext : String)
    (c : Int) (s : Nat) :
    (subRows cid ctext sid stext).filter
        (fun r => r.chunk_id == c && r.subchunk_id == s) =
      if (cid == c && sid == s) then subRows cid ctext sid stext else [] := by
  by_cases h : (cid == c && sid == s) = true
  · rw [if_pos h]
    apply List.filter_eq_self.mpr
    intro r hr
    obtain ⟨h1, _, h3, _, _⟩ := subRows_fields hr
    rw [h1, h3]
    exact h
  · rw [if_neg h]
    apply List.filter_eq_nil_iff.mpr
    intro r hr
    obtain ⟨h1, _, h3, _, _⟩ := subRows_fields hr
    rw [h1, h3]
    simpa using h

theorem flatten_map_if {α β : Type} (qb : α → Bool) (g : α → List β) :
    ∀ ds : List α,
      (ds.map (fun d => if qb d then g d else [])).flatten =
        ((ds.filter qb).map g).flatten := by
  intro ds
  induction ds with
  | nil => rfl
  | cons d rest ih =>
    rw [List.map_cons, List.flatten_cons, List.filter_cons]
    by_cases h : qb d = true
    · rw [if_pos h, if_pos h, List.map_cons, List.flatten_cons, ih]
    · rw [if_neg h, if_neg h, ih]
      rfl

theorem sentKey_append (r1 r2 : List Row) (c : Int) (s : Nat) :
    sentKey (r1 ++ r2) c s = sentKey r1 c s ++ sentKey r2 c s := by
  unfold sentKey
  rw [List.filter_append, List.map_append]

theorem buildRows_cons (d : SubD) (ds : List SubD) :
    buildRows (d :: ds) = subRows d.cid d.ctext d.sid d.stext ++ buildRows ds := by
  unfold buildRows
  rw [List.map_cons, List.flatten_cons]

theorem sentKey_subRows (cid : Int) (ctext : String) (sid : Nat) (stext : String)
    (c : Int) (s : Nat) :
    sentKey (subRows cid ctext sid stext) c s =
      if (cid == c && sid == s) then List.range' 1 (kLen stext) 1 else [] := by
  unfold sentKey
  rw [subRows_filter]
  by_cases h : (cid == c && sid == s) = true
  · rw [if_pos h, if_pos h, subRows_sids]
  · rw [if_neg h, if_neg h]
    rfl

theorem sentKey_buildRows (c : Int) (s : Nat) : ∀ ds : List SubD,
    sentKey (buildRows ds) c s =
      ((ds.filter (fun d => d.cid == c && d.sid == s)).map
        (fun d => List.range' 1 (kLen d.stext) 1)).flatten := by
  intro ds
  induction ds with
  | nil => rfl
  | cons d rest ih =>
    rw [buildRows_cons, sentKey_append, sentKey_subRows, ih, List.filter_cons]
    by_cases h : (d.cid == c && d.sid == s) = true
    · rw [if_pos h, if_pos h, List.map_cons, List.flatten_cons]
    · rw [if_neg h, if_neg h, List.nil_append]

theorem foldr_max_le_mem : ∀ (l : List Nat) (x : Nat), x ∈ l → x ≤ l.foldr max 0 := by
  intro l
  induction l with
  | nil => intro x h; simp at h
  | cons a t ih =>
    intro x h
    rcases List.mem_cons.mp h with h1 | h2
    · subst h1
      exact Nat.le_max_left _ _
    · exact Nat.le_trans (ih x h2) (Nat.le_max_right _ _)

theorem foldr_max_mem : ∀ l : List Nat, l ≠ [] → l.foldr max 0 ∈ l ∨ l.foldr max 0 = 0 := by
  intro l
  induction l with
  | nil => intro h; exact absurd rfl h
  | cons a t ih =>
    intro _
    cases t with
    | nil => simp
    | cons b t2 =>
      rcases Nat.le_total a ((b :: t2).foldr max 0) with h | h
      · rw [List.foldr_cons, Nat.max_eq_right h]
        rcases ih (by simp) with hm | h0
        · exact Or.inl (List.mem_cons_of_mem _ hm)
        · exact Or.inr h0
      · rw [List.foldr_cons, Nat.max_eq_left h]
        exact Or.inl (List.mem_cons_self _ _)

theorem density_buildRows (ds : List SubD) (c : Int) (s : Nat)
    (hne : sentKey (buildRows ds) c s ≠ []) :
    ∃ k, 1 ≤ k ∧
      ∀ n, n ∈ sentKey (buildRows ds) c s ↔ (1 ≤ n ∧ n ≤ k) := by
  have hkey := sentKey_buildRows c s ds
  rw [hkey] at hne ⊢
  have hmatched : ds.filter (fun d => d.cid == c && d.sid == s) ≠ [] := by
    intro hm
    rw [hm] at hne
    exact hne rfl
  have hks : (ds.filter (fun d => d.cid == c && d.sid == s)).map
      (fun d => kLen d.stext) ≠ [] := by
    intro hm
    exact hmatched (List.map_eq_nil_iff.mp hm)
  refine ⟨((ds.filter (fun d => d.cid == c && d.sid == s)).map
      (fun d => kLen d.stext)).foldr max 0, ?_, ?_⟩
  · rcases foldr_max_mem _ hks with hm | h0
    · obtain ⟨d, _, he⟩ := List.mem_map.mp hm
      rw [← he]
      exact kLen_pos _
    · exfalso
      obtain ⟨x, hx⟩ := List.exists_mem_of_ne_nil _ hks
      have h1 := foldr_max_le_mem _ x hx
      rw [h0] at h1
      obtain ⟨d, _, he⟩ := List.mem_map.mp hx
      have := kLen_pos d.stext
      omega
  · intro n
    constructor
    · intro hn
      obtain ⟨blk, hblk, hnb⟩ := List.mem_flatten.mp hn
      obtain ⟨d, hd, he⟩ := List.mem_map.mp hblk
      rw [← he] at hnb
      obtain ⟨hn1, hn2⟩ := List.mem_range'_1.mp hnb
      refine ⟨hn1, ?_⟩
      have hk := foldr_max_le_mem
        ((ds.filter (fun d => d.cid == c && d.sid == s)).map
          (fun d => kLen d.stext)) (kLen d.stext)
        (List.mem_map.mpr ⟨d, hd, rfl⟩)
      omega
    · intro ⟨hn1, hn2⟩
      rcases foldr_max_mem _ hks with hm | h0
      · obtain ⟨d, hd, he⟩ := List.mem_map.mp hm
        refine List.mem_flatten.mpr ⟨List.range' 1 (kLen d.stext) 1,
          List.mem_map.mpr ⟨d, hd, rfl⟩, ?_⟩
        rw [List.mem_range'_1]
        omega
      · omega

theorem rowsFromChunks_ok (T : Tokenizer) (sl : Int) :
    ∀ (chunks : List (Int × String)) (rows : List Row),
      rowsFromChunks T sl chunks = .ok rows →
      ∃ ds : List SubD, rows = buildRows ds ∧
        ∀ d ∈ ds, 1 ≤ d.sid ∧ d.cid ∈ chunks.map Prod.fst := by
  intro chunks
  induction chunks with
  | nil =>
    intro rows h
    refine ⟨[], ?_, by simp⟩
    simp only [rowsFromChunks] at h
    cases h
    rfl
  | cons p rest ih =>
    obtain ⟨cid, ctext⟩ := p
    intro rows h
    simp only [rowsFromChunks] at h
    cases hsp : split_by_tokens T ctext sl with
    | error e => rw [hsp] at h; cases h
    | ok subs =>
      rw [hsp] at h
      cases hrc : rowsFromChunks T sl rest with
      | error e => rw [hrc] at h; cases h
      | ok rs =>
        rw [hrc] at h
        cases h
        obtain ⟨ds, hds, hprop⟩ := ih rs hrc
        refine ⟨(enumerate1 subs).map (fun q => ⟨cid, ctext, q.1, q.2⟩) ++ ds,
          ?_, ?_⟩
        · rw [buildRows_append, ← hds, ← chunkBlock_eq_buildRows]
        · intro d hd
          rcases List.mem_append.mp hd with h1 | h2
          · obtain ⟨q, hq, he⟩ := List.mem_map.mp h1
            obtain ⟨i, x⟩ := q
            have := (enumerate1_mem hq).1
            subst he
            refine ⟨this, ?_⟩
            simp
          · obtain ⟨hs, hc⟩ := hprop d h2
            refine ⟨hs, ?_⟩
            rw [List.map_cons]
            exact List.mem_cons_of_mem _ hc

theorem from_raw_text_ok {T : Tokenizer} {text : String} {ml sl : Int}
    {rows : List Row} (h : from_raw_text T text ml sl = .ok rows) :
    ∃ ds : List SubD, rows = buildRows ds ∧
      ∀ d ∈ ds, 1 ≤ d.cid ∧ 1 ≤ d.sid := by
  unfold from_raw_text at h
  cases hsp : split_by_tokens T text ml with
  | error e => rw [hsp] at h; cases h
  | ok main_chunks =>
    rw [hsp] at h
    obtain ⟨ds, hds, hprop⟩ := rowsFromChunks_ok T sl _ rows h
    refine ⟨ds, hds, ?_⟩
    intro d hd
    obtain ⟨hs, hc⟩ := hprop d hd
    refine ⟨?_, hs⟩
    rw [List.map_map] at hc
    obtain ⟨q, hq, he⟩ := List.mem_map.mp hc
    obtain ⟨i, x⟩ := q
    have h1 := (enumerate1_mem hq).1
    simp only [Function.comp_apply] at he
    rw [← he]
    exact_mod_cast h1

theorem csvRows_ok (T : Tokenizer) (sl : Int) (a b : String) :
    ∀ (rws : List (String → Cell)) (rows : List Row),
      csvRows T sl a b rws = .ok rows →
      ∃ ds : List SubD, rows = buildRows ds ∧
        ∀ d ∈ ds, 1 ≤ d.sid ∧ ∃ rf ∈ rws, pyInt (rf a) = .ok d.cid := by
  intro rws
  induction rws with
  | nil =>
    intro rows h
    refine ⟨[], ?_, by simp⟩
    simp only [csvRows] at h
    cases h
    rfl
  | cons rf0 rest ih =>
    intro rows h
    simp only [csvRows] at h
    cases hpi : pyInt (rf0 a) with
    | error e => rw [hpi] at h; cases h
    | ok cid =>
      rw [hpi] at h
      cases hsp : split_by_tokens T (pyOrStr (rf0 b)) sl with
      | error e => rw [hsp] at h; cases h
      | ok subs =>
        rw [hsp] at h
        cases hrc : csvRows T sl a b rest with
        | error e => rw [hrc] at h; cases h
        | ok rs =>
          rw [hrc] at h
          cases h
          obtain ⟨ds, hds, hprop⟩ := ih rs hrc
          refine ⟨(enumerate1 subs).map
              (fun q => ⟨cid, pyOrStr (rf0 b), q.1, q.2⟩) ++ ds, ?_, ?_⟩
          · rw [buildRows_append, ← hds, ← chunkBlock_eq_buildRows]
          · intro d hd
            rcases List.mem_append.mp hd with h1 | h2
            · obtain ⟨q, hq, he⟩ := List.mem_map.mp h1
              obtain ⟨i, x⟩ := q
              have := (enumerate1_mem hq).1
              subst he
              exact ⟨this, rf0, List.mem_cons_self _ _, hpi⟩
            · obtain ⟨hs, rf, hrf, hpi2⟩ := hprop d h2
              exact ⟨hs, rf, List.mem_cons_of_mem _ hrf, hpi2⟩

theorem pyInt_error {c : Cell} {e : PyError} (h : pyInt c = .error e) :
    e = .intParseError := by
  cases c with
  | cInt n => simp [pyInt] at h
  | cStr s =>
    simp only [pyInt] at h
    cases hp : pyIntParse s.data with
    | none => rw [hp] at h; cases h; rfl
    | some n => rw [hp] at h; cases h

theorem split_by_tokens_error {T : Tokenizer} {text : String} {l : Int}
    {e : PyError} (h : split_by_tokens T text l = .error e) :
    e = .rangeStepZero := by
  unfold split_by_tokens at h
  by_cases h0 : l = 0
  · rw [if_pos h0] at h
    cases h
    rfl
  · rw [if_neg h0] at h
    by_cases hneg : l < 0
    · rw [if_pos hneg] at h; cases h
    · rw [if_neg hneg] at h; cases h

theorem csvRows_ne_missing (T : Tokenizer) (sl : Int) (a b : String) :
    ∀ rws : List (String → Cell),
      csvRows T sl a b rws ≠ .error .missingColumns := by
  intro rws
  induction rws with
  | nil => intro h; simp [csvRows] at h
  | cons rf0 rest ih =>
    intro h
    simp only [csvRows] at h
    cases hpi : pyInt (rf0 a) with
    | error e =>
      rw [hpi] at h
      cases h
      exact absurd (pyInt_error hpi).symm (by simp)
    | ok cid =>
      rw [hpi] at h
      cases hsp : split_by_tokens T (pyOrStr (rf0 b)) sl with
      | error e =>
        rw [hsp] at h
        cases h
        exact absurd (split_by_tokens_error hsp).symm (by simp)
      | ok subs =>
        rw [hsp] at h
        cases hrc : csvRows T sl a b rest with
        | error e =>
          rw [hrc] at h
          cases h
          exact ih hrc
        | ok rs =>
          rw [hrc] at h
          cases h

theorem csvRows_int_error (T : Tokenizer) {sl : Int} (a b : String)
    (hsl : 0 < sl) :
    ∀ rws : List (String → Cell),
      (∃ rf ∈ rws, pyInt (rf a) = .error .intParseError) →
      csvRows T sl a b rws = .error .intParseError := by
  intro rws
  induction rws with
  | nil => intro ⟨rf, hrf, _⟩; simp at hrf
  | cons rf0 rest ih =>
    intro ⟨rf, hrf, herr⟩
    simp only [csvRows]
    cases hpi : pyInt (rf0 a) with
    | error e => rw [pyInt_error hpi]
    | ok cid =>
      rw [split_by_tokens_pos T (pyOrStr (rf0 b)) hsl]
      have hrest : ∃ rf ∈ rest, pyInt (rf a) = .error .intParseError := by
        rcases List.mem_cons.mp hrf with h1 | h2
        · exfalso
          rw [h1] at herr
          rw [herr] at hpi
          cases hpi
        · exact ⟨rf, h2, herr⟩
      rw [ih hrest]

theorem lowerGet_isSome_of_mem {cols : List String} {key a : String}
    (ha : a ∈ cols) (hl : strLower a = key) :
    ∃ c, lowerGet cols key = some c := by
  unfold lowerGet
  cases hx : (cols.filter (fun c => strLower c == key)).getLast? with
  | none =>
    exfalso
    have hnil := List.getLast?_eq_none_iff.mp hx
    have : a ∈ cols.filter (fun c => strLower c == key) :=
      List.mem_filter.mpr ⟨ha, by rw [hl]; simp⟩
    rw [hnil] at this
    simp at this
  | some c => exact ⟨c, rfl⟩

theorem from_chunk_csv_eq_csvRows (T : Tokenizer) (df : Frame) (sl : Int)
    {a b : String} (h1 : lowerGet df.columns "chunk_id" = some a)
    (h2 : lowerGet df.columns "chunk_text" = some b) :
    from_chunk_csv T df sl = csvRows T sl a b df.rows := by
  unfold from_chunk_csv
  rw [h1, h2]

theorem from_chunk_csv_missing (T : Tokenizer) (df : Frame) (sl : Int)
    (h : lowerGet df.columns "chunk_id" = none ∨
      lowerGet df.columns "chunk_text" = none) :
    from_chunk_csv T df sl = .error .missingColumns := by
  unfold from_chunk_csv
  rcases h with h1 | h2
  · rw [h1]
  · rw [h2]
    cases lowerGet df.columns "chunk_id" <;> rfl

/-- C1: for every tokenizer, text and positive limit, `split_by_tokens`
decodes exactly the slicing of the encoded token sequence into contiguous,
in-order, non-overlapping slices (their concatenation is the original token
sequence); every slice except possibly the last has exactly `limit` tokens,
every slice (in particular the last) has between 1 and `limit` tokens, the
slice count is `ceil(token_count / limit)`, and empty text yields the empty
sequence. -/
theorem C1_split_by_tokens_partition (T : Tokenizer) (text : String)
    (limit : Int) (hpos : 0 < limit) :
    split_by_tokens T text limit =
      .ok ((tokenSlices (T.encode text) limit.toNat).map T.decode) ∧
    (tokenSlices (T.encode text) limit.toNat).flatten = T.encode text ∧
    (∀ (i : Nat) (s : List Nat),
      i + 1 < (tokenSlices (T.encode text) limit.toNat).length →
      (tokenSlices (T.encode text) limit.toNat)[i]? = some s →
      s.length = limit.toNat) ∧
    (∀ s ∈ tokenSlices (T.encode text) limit.toNat,
      1 ≤ s.length ∧ s.length ≤ limit.toNat) ∧
    (tokenSlices (T.encode text) limit.toNat).length =
      ((T.encode text).length + limit.toNat - 1) / limit.toNat ∧
    (text = "" → split_by_tokens T text limit = .ok []) := by
  obtain ⟨l, hl⟩ : ∃ l, limit.toNat = l + 1 := ⟨limit.toNat - 1, by omega⟩
  refine ⟨split_by_tokens_pos T text hpos, ?_, ?_, ?_, ?_, ?_⟩
  · rw [hl, tokenSlices_eq_chunkRecP]
    exact chunkRecP_flatten l _
  · intro i s hi hg
    rw [hl, tokenSlices_eq_chunkRecP] at hi hg
    rw [hl]
    exact chunkRecP_get_full_aux l (T.encode text).length _ i s (Nat.le_refl _) hi hg
  · intro s hs
    rw [hl, tokenSlices_eq_chunkRecP] at hs
    rw [hl]
    exact chunkRecP_mem_length l _ s hs
  · rw [hl, tokenSlices_eq_chunkRecP, chunkRecP_length]
    congr 1
  · intro he
    subst he
    rw [split_by_tokens_pos T "" hpos, T.encode_empty, hl, tokenSlices_eq_chunkRecP]
    simp [chunkRecP]

theorem C1_witness :
    (0 : Int) < 3 ∧
    (tokenSlices (demoTok.encode "abcde") ((3 : Int)).toNat).flatten =
      demoTok.encode "abcde" :=
  ⟨by decide, (C1_split_by_tokens_partition demoTok "abcde" 3 (by decide)).2.1⟩

/-- C2: evaluating the code at the failing input of the claim: a negative
limit makes `range(0, n, limit)` empty, so `split_by_tokens` silently returns
the empty list instead of failing; only limit 0 raises (the `range` step-zero
`ValueError`, not a dedicated argument check). -/
theorem C2_limit_nonpositive_eval :
    split_by_tokens demoTok "hi" (-1) = .ok [] ∧
    split_by_tokens demoTok "hi" 0 = .error .rangeStepZero := ⟨rfl, rfl⟩

/-- C3 counterexample: in mode (b) a caller-supplied chunk id of `0` is
emitted verbatim, so an emitted row has `chunk_id = 0 < 1`, refuting the
claim as stated for mode (b). -/
theorem C3_counterexample :
    from_chunk_csv demoTok frameZero 5 =
      .ok [⟨0, "hi", 1, "hi", 1, "hi"⟩] ∧ ¬(1 ≤ (0 : Int)) :=
  ⟨rfl, by decide⟩

/-- C3 (amended): every row emitted by `from_raw_text` has
`chunk_id, subchunk_id, sentence_id ≥ 1` and, within any fixed
`(chunk_id, subchunk_id)` pair, the emitted `sentence_id` values are exactly
`{1, ..., k}` for some `k ≥ 1`; the same holds for `from_chunk_csv` provided
every caller-supplied chunk id parses to an integer `≥ 1`. -/
theorem C3_ids_dense :
    (∀ (T : Tokenizer) (text : String) (ml sl : Int) (rows : List Row),
      from_raw_text T text ml sl = .ok rows →
      (∀ r ∈ rows, 1 ≤ r.chunk_id ∧ 1 ≤ r.subchunk_id ∧ 1 ≤ r.sentence_id) ∧
      (∀ (c : Int) (s : Nat), sentKey rows c s ≠ [] →
        ∃ k, 1 ≤ k ∧ ∀ n, n ∈ sentKey rows c s ↔ (1 ≤ n ∧ n ≤ k))) ∧
    (∀ (T : Tokenizer) (df : Frame) (sl : Int) (rows : List Row)
      (cidCol : String),
      lowerGet df.columns "chunk_id" = some cidCol →
      (∀ rf ∈ df.rows, ∀ z : Int, pyInt (rf cidCol) = .ok z → 1 ≤ z) →
      from_chunk_csv T df sl = .ok rows →
      (∀ r ∈ rows, 1 ≤ r.chunk_id ∧ 1 ≤ r.subchunk_id ∧ 1 ≤ r.sentence_id) ∧
      (∀ (c : Int) (s : Nat), sentKey rows c s ≠ [] →
        ∃ k, 1 ≤ k ∧ ∀ n, n ∈ sentKey rows c s ↔ (1 ≤ n ∧ n ≤ k))) := by
  constructor
  · intro T text ml sl rows h
    obtain ⟨ds, rfl, hprop⟩ := from_raw_text_ok h
    exact ⟨buildRows_ids ds hprop, fun c s hne => density_buildRows ds c s hne⟩
  · intro T df sl rows cidCol hcol hpos h
    cases hct : lowerGet df.columns "chunk_text" with
    | none =>
      rw [from_chunk_csv_missing T df sl (Or.inr hct)] at h
      exact absurd h (by simp)
    | some ctxCol =>
      rw [from_chunk_csv_eq_csvRows T df sl hcol hct] at h
      obtain ⟨ds, rfl, hprop⟩ := csvRows_ok T sl cidCol ctxCol df.rows rows h
      refine ⟨buildRows_ids ds ?_, fun c s hne => density_buildRows ds c s hne⟩
      intro d hd
      obtain ⟨hs, rf, hrf, hok⟩ := hprop d hd
      exact ⟨hpos rf hrf d.cid hok, hs⟩

theorem C3_witness :
    (1 ≤ (Row.mk 1 "ab" 1 "ab" 1 "ab").chunk_id ∧
      1 ≤ (Row.mk 1 "ab" 1 "ab" 1 "ab").subchunk_id ∧
      1 ≤ (Row.mk 1 "ab" 1 "ab" 1 "ab").sentence_id) ∧
    (1 ≤ (Row.mk 7 "hi" 1 "hi" 1 "hi").chunk_id ∧
      1 ≤ (Row.mk 7 "hi" 1 "hi" 1 "hi").subchunk_id ∧
      1 ≤ (Row.mk 7 "hi" 1 "hi" 1 "hi").sentence_id) := by
  constructor
  · exact (C3_ids_dense.1 demoTok "ab" 5 5 [⟨1, "ab", 1, "ab", 1, "ab"⟩] rfl).1
      (Row.mk 1 "ab" 1 "ab" 1 "ab") (List.mem_singleton.mpr rfl)
  · refine (C3_ids_dense.2 demoTok frameUpper 5 [⟨7, "hi", 1, "hi", 1, "hi"⟩]
      "CHUNK_ID" rfl ?_ rfl).1
      (Row.mk 7 "hi" 1 "hi" 1 "hi") (List.mem_singleton.mpr rfl)
    intro rf hrf z hz
    simp only [frameUpper, List.mem_singleton] at hrf
    subst hrf
    rw [show pyInt ((fun c => if c = "CHUNK_ID" then Cell.cInt 7
        else Cell.cStr "hi") "CHUNK_ID") = Except.ok 7 from rfl] at hz
    injection hz with hz2
    omega

/-- C4: a subchunk whose sentence split is empty is emitted as exactly one
row, with `sentence_id = 1` and `sentence_text` equal to the subchunk text
verbatim, in both builder modes. -/
theorem C4_fallback :
    (∀ (cid : Int) (ctext : String) (sid : Nat) (stext : String),
      split_into_sentencesS stext = [] →
      subRows cid ctext sid stext = [⟨cid, ctext, sid, stext, 1, stext⟩]) ∧
    (∀ (T : Tokenizer) (text : String) (ml sl : Int) (rows : List Row),
      from_raw_text T text ml sl = .ok rows →
      ∀ r ∈ rows, split_into_sentencesS r.subchunk_text = [] →
        r.sentence_id = 1 ∧ r.sentence_text = r.subchunk_text) ∧
    (∀ (T : Tokenizer) (df : Frame) (sl : Int) (rows : List Row),
      from_chunk_csv T df sl = .ok rows →
      ∀ r ∈ rows, split_into_sentencesS r.subchunk_text = [] →
        r.sentence_id = 1 ∧ r.sentence_text = r.subchunk_text) := by
  have key : ∀ (ds : List SubD) (r : Row), r ∈ buildRows ds →
      split_into_sentencesS r.subchunk_text = [] →
      r.sentence_id = 1 ∧ r.sentence_text = r.subchunk_text := by
    intro ds r hr hsp
    obtain ⟨d, _, hrs⟩ := buildRows_mem hr
    have hst : r.subchunk_text = d.stext := (subRows_fields hrs).2.2.2.1
    rw [hst] at hsp
    rw [subRows_of_empty d.cid d.ctext d.sid d.stext hsp] at hrs
    simp only [List.mem_singleton] at hrs
    subst hrs
    exact ⟨rfl, rfl⟩
  refine ⟨?_, ?_, ?_⟩
  · intro cid ctext sid stext h
    exact subRows_of_empty cid ctext sid stext h
  · intro T text ml sl rows h r hr hsp
    obtain ⟨ds, rfl, _⟩ := from_raw_text_ok h
    exact key ds r hr hsp
  · intro T df sl rows h r hr hsp
    cases hcid : lowerGet df.columns "chunk_id" with
    | none =>
      rw [from_chunk_csv_missing T df sl (Or.inl hcid)] at h
      exact absurd h (by simp)
    | some a =>
      cases hct : lowerGet df.columns "chunk_text" with
      | none =>
        rw [from_chunk_csv_missing T df sl (Or.inr hct)] at h
        exact absurd h (by simp)
      | some b =>
        rw [from_chunk_csv_eq_csvRows T df sl hcid hct] at h
        obtain ⟨ds, rfl, _⟩ := csvRows_ok T sl a b df.rows rows h
        exact key ds r hr hsp

theorem C4_witness :
    subRows 1 "x" 1 " " = [⟨1, "x", 1, " ", 1, " "⟩] :=
  C4_fallback.1 1 "x" 1 " " rfl

/-- C5 counterexample: the input `"a  b"` contains no boundary, yet its
single output span is the whitespace-collapsed `"a b"`, not the trimmed
input text `"a  b"` as the claim states. -/
theorem C5_counterexample :
    split_into_sentencesS "a  b" = ["a b"] ∧
    split_into_sentencesS "a  b" ≠ ["a  b"] :=
  ⟨rfl, by decide⟩

/-- C5 (amended): `split_into_sentences("Hello. World!")` is
`["Hello.", "World!"]`; an input with no boundary yields one span equal to
its trimmed text after horizontal-whitespace collapsing; and for normalized
spans `u`, `v` with no internal boundary, a separator that is either
whitespace after a terminal-punctuation character ending `u` or a run of two
or more newlines places a boundary exactly there: the punctuation stays with
`u` and the separator is dropped. -/
theorem C5_boundaries :
    split_into_sentencesS "Hello. World!" = ["Hello.", "World!"] ∧
    (∀ t : String, pyStrip t.data ≠ [] →
      chainW none (collapseHT (pyStrip t.data)) [] = true →
      split_into_sentencesS t = [String.mk (collapseHT (pyStrip t.data))]) ∧
    (∀ (u sep : List Char) (lu hv : Char) (vt : List Char),
      chainW none u (sep ++ (hv :: vt)) = true →
      u.getLast? = some lu →
      isSpc hv = false →
      chainW none (hv :: vt) [] = true →
      ((isTerm lu = true ∧ sep ≠ [] ∧ sep.all isSpc = true) ∨
        (sep.all (· == '\n') = true ∧ 2 ≤ sep.length)) →
      pyStrip (u ++ sep ++ (hv :: vt)) = u ++ sep ++ (hv :: vt) →
      collapseHT (u ++ sep ++ (hv :: vt)) = u ++ sep ++ (hv :: vt) →
      pyStrip u = u → pyStrip (hv :: vt) = hv :: vt →
      split_into_sentencesCL (u ++ sep ++ (hv :: vt)) = [u, hv :: vt]) := by
  refine ⟨rfl, ?_, ?_⟩
  · intro t hne hnb
    unfold split_into_sentencesS
    rw [split_noBoundary t.data hne hnb]
    rfl
  · intro u sep lu hv vt hu hlu hhv hvch hsep hstripT hcollT hsu hsv
    have hune : u ≠ [] := by
      intro he
      rw [he] at hlu
      simp at hlu
    have htotne : pyStrip (u ++ sep ++ (hv :: vt)) ≠ [] := by
      rw [hstripT]
      simp [hune]
    unfold split_into_sentencesCL
    rw [if_neg htotne, hstripT, hcollT,
      scan_junction u sep lu hv vt hu hlu hhv hvch hsep]
    have hpu : pyStrip u ≠ [] := by
      rw [hsu]
      exact hune
    have hpv : pyStrip (hv :: vt) ≠ [] := by
      rw [hsv]
      simp
    simp [List.filterMap_cons, hune, hpu, hpv, hsu, hsv]

theorem C5_witness :
    split_into_sentencesCL ("Hello.".data ++ [' '] ++ ('W' :: "orld!".data)) =
      ["Hello.".data, 'W' :: "orld!".data] :=
  C5_boundaries.2.2 "Hello.".data [' '] '.' 'W' "orld!".data
    (by decide) (by decide) (by decide) (by decide)
    (Or.inl ⟨by decide, by decide, by decide⟩)
    (by decide) (by decide) (by decide) (by decide)

/-- C6: every span returned by the sentence splitter is non-empty after
trimming (no pure-whitespace span), and whitespace-only input yields the
empty sequence. -/
theorem C6_spans_nonempty :
    (∀ s : String, ∀ t ∈ split_into_sentencesS s, pyStrip t.data ≠ []) ∧
    (∀ s : String, (∀ c ∈ s.data, isSpc c = true) →
      split_into_sentencesS s = []) := by
  constructor
  · intro s t ht
    unfold split_into_sentencesS at ht
    obtain ⟨cl, hcl, he⟩ := List.mem_map.mp ht
    have hstr := split_span_strip_ne s.data cl hcl
    subst he
    exact hstr
  · intro s h
    unfold split_into_sentencesS
    rw [split_ws_only s.data h]
    rfl

theorem C6_witness : split_into_sentencesS "   " = [] :=
  C6_spans_nonempty.2 "   " (by decide)

/-- C7: in mode (b) the builder fails with the missing-column `ValueError`
when a required column is absent (case-insensitively), and fails with the
`int()` `ValueError` when some row of the table has a chunk id cell that does
not parse as an integer — it never silently coerces a malformed id. -/
theorem C7_invalid_input :
    (∀ (T : Tokenizer) (df : Frame) (sl : Int),
      (lowerGet df.columns "chunk_id" = none ∨
        lowerGet df.columns "chunk_text" = none) →
      from_chunk_csv T df sl = .error .missingColumns) ∧
    (∀ (T : Tokenizer) (df : Frame) (sl : Int) (cidCol ctxCol : String),
      0 < sl →
      lowerGet df.columns "chunk_id" = some cidCol →
      lowerGet df.columns "chunk_text" = some ctxCol →
      (∃ rf ∈ df.rows, pyInt (rf cidCol) = .error .intParseError) →
      from_chunk_csv T df sl = .error .intParseError) := by
  constructor
  · intro T df sl h
    exact from_chunk_csv_missing T df sl h
  · intro T df sl a b hsl h1 h2 hex
    rw [from_chunk_csv_eq_csvRows T df sl h1 h2]
    exact csvRows_int_error T a b hsl df.rows hex

theorem C7_witness :
    from_chunk_csv demoTok frameBad 5 = .error .intParseError :=
  C7_invalid_input.2 demoTok frameBad 5 "chunk_id" "chunk_text" (by decide)
    rfl rfl ⟨fun _ => Cell.cStr "abc", List.mem_singleton.mpr rfl, rfl⟩

/-- C8: the hierarchy builder is a pure function of the injected tokenizer,
the input and the limits: two runs on equal inputs produce equal row
streams, in both modes. -/
theorem C8_deterministic :
    (∀ (T1 T2 : Tokenizer) (t1 t2 : String) (m1 m2 s1 s2 : Int),
      T1 = T2 → t1 = t2 → m1 = m2 → s1 = s2 →
      from_raw_text T1 t1 m1 s1 = from_raw_text T2 t2 m2 s2) ∧
    (∀ (T1 T2 : Tokenizer) (d1 d2 : Frame) (s1 s2 : Int),
      T1 = T2 → d1 = d2 → s1 = s2 →
      from_chunk_csv T1 d1 s1 = from_chunk_csv T2 d2 s2) := by
  constructor
  · intro T1 T2 t1 t2 m1 m2 s1 s2 hT ht hm hs
    subst hT
    subst ht
    subst hm
    subst hs
    rfl
  · intro T1 T2 d1 d2 s1 s2 hT hd hs
    subst hT
    subst hd
    subst hs
    rfl

theorem C8_witness :
    from_raw_text demoTok "ab" 5 5 = from_raw_text demoTok "ab" 5 5 :=
  C8_deterministic.1 demoTok demoTok "ab" "ab" 5 5 5 5 rfl rfl rfl rfl

/-- C9: the composite datastore key of `insert_csv.py` is exactly the three
ids zero-padded to fixed width 6 and joined by a dash, for the non-negative
ids of emitted rows; at `(1, 2, 3)` it is the string
`000001-000002-000003`. -/
theorem C9_composite_key :
    (∀ c s t : Int, 0 ≤ c → 0 ≤ s → 0 ≤ t →
      rowUuid c s t = compositeKeySpec c s t) ∧
    rowUuid 1 2 3 = "000001-000002-000003" := by
  constructor
  · intro c s t hc hs ht
    have key : ∀ x : Int, 0 ≤ x → py06d x = padKeySpec x := by
      intro x hx
      unfold py06d padKeySpec zfill
      rw [if_neg (by omega)]
      by_cases hlen : 6 ≤ (Nat.repr x.toNat).length
      · rw [if_pos hlen]
        have h0 : 6 - (Nat.repr x.toNat).length = 0 := by omega
        rw [h0]
        rfl
      · rw [if_neg hlen]
    unfold rowUuid compositeKeySpec
    rw [key c hc, key s hs, key t ht]
  · rfl

theorem C9_witness : rowUuid 1 2 3 = compositeKeySpec 1 2 3 :=
  C9_composite_key.1 1 2 3 (by decide) (by decide) (by decide)

/-- C10: in mode (b) the required columns are matched case-insensitively: a
table whose column names lower to `chunk_id` and `chunk_text` is accepted
(never the missing-column failure), and the values are read from those
columns, as the mixed-case instance shows. -/
theorem C10_case_insensitive :
    (∀ (T : Tokenizer) (df : Frame) (sl : Int),
      (∃ a ∈ df.columns, strLower a = "chunk_id") →
      (∃ b ∈ df.columns, strLower b = "chunk_text") →
      from_chunk_csv T df sl ≠ .error .missingColumns) ∧
    from_chunk_csv demoTok frameUpper 5 = .ok [⟨7, "hi", 1, "hi", 1, "hi"⟩] := by
  constructor
  · intro T df sl ha hb
    obtain ⟨a, hma, hla⟩ := ha
    obtain ⟨b, hmb, hlb⟩ := hb
    obtain ⟨ca, hca⟩ := lowerGet_isSome_of_mem hma hla
    obtain ⟨cb, hcb⟩ := lowerGet_isSome_of_mem hmb hlb
    rw [from_chunk_csv_eq_csvRows T df sl hca hcb]
    exact csvRows_ne_missing T sl ca cb df.rows
  · rfl

theorem C10_witness :
    from_chunk_csv demoTok frameUpper 5 ≠ .error .missingColumns :=
  C10_case_insensitive.1 demoTok frameUpper 5
    ⟨"CHUNK_ID", by decide, rfl⟩ ⟨"Chunk_Text", by decide, rfl⟩
